import Mathlib

/-!
Verification of the less-than oracle repository.

Two layers of the source are embedded.

The oracle layer is embedded as lists of `Gate`s (X, Z, and the
multi-controlled-Z block) with a phase-tracking semantics on computational
basis states: the host library's single-qubit X and Z gates and the
multi-controlled-Z block of `code_oracle.py` (H, library MCX, H) act on a
basis state by a bit flip, a conditional `-1` phase, and a `-1` phase exactly
when all wires of the block hold `1`, which is their documented contract; the
host circuit framework itself is an external collaborator of the repository.
The two source files differ sharply at run time: `code_oracle.py` is
self-contained and works (`oracle_less_than` there is modelled by
`oracle_less_than` below), while `functions_oracles.py` line 72 passes the
keyword `targ=` to `linear_mc_gate`, whose parameter is named `target`, so
every call of its `multi_control_z` raises TypeError; its `oracle_less_than`
and `oracle_greater_than` therefore crash on every input that reaches a
multi-controlled-Z, which the `fo_`-prefixed definitions model faithfully.

The synthesizer layer (`linear_mc_gate.py` and
`functions_oracles.multi_control_z`) is embedded structurally as lists of
`MCGate`s recording, in append order, each two-qubit gate together with its
parameters (which root of U, direct or inverse, rotation sign and exponent,
control and target wires), faithful to `_build_P_gates`, `_build_Q_gates` and
`linear_mc_gate`.
-/

namespace LTO

/-- Python exceptions that the oracle builder can hit: AttributeError from
calling `.rstrip` on `None`, IndexError from indexing the empty stripped
string, and TypeError from the `targ=` keyword that `functions_oracles.py`
line 72 passes to `linear_mc_gate`, whose parameter is named `target`. -/
inductive PyErr
| attributeError
| indexError
| typeError
deriving DecidableEq

/-- Gate alphabet of the oracle layer: `x w` and `z w` are the single-qubit X
and Z gates on wire `w`; `mcz ws` is the multi-controlled-Z block of
`code_oracle.py`'s `multi_control_z` (H, library MCX, H) recorded by the list
of wires it is appended on (its phase contract is symmetric in them). -/
inductive Gate
| x : ℕ → Gate
| z : ℕ → Gate
| mcz : List ℕ → Gate
deriving DecidableEq

/-- Phase-tracking semantics of one gate on the computational basis state `s`
(wire `w` holds bit `w` of `s`, qiskit little-endian convention): X flips the
wire's bit, Z contributes phase `-1` when the wire holds `1`, and the
multi-controlled Z contributes `-1` exactly when all its wires hold `1`. -/
def applyGate : Gate → ℕ → ℕ × ℤ
| Gate.x w, s => (s ^^^ 2 ^ w, 1)
| Gate.z w, s => (s, if s.testBit w then -1 else 1)
| Gate.mcz ws, s => (s, if ws.all (fun w => s.testBit w) then -1 else 1)

/-- Run a gate list left to right from basis state `s`, multiplying phases. -/
def applyGates : List Gate → ℕ → ℕ × ℤ
| [], s => (s, 1)
| g :: gs, s => ((applyGates gs (applyGate g s).1).1, (applyGate g s).2 * (applyGates gs (applyGate g s).1).2)

/-- Fuel-driven LSB-first binary digits: `lsbBitsAux fuel n` emits `n % 2` and
recurses on `n / 2` while fuel remains and `n` is nonzero. -/
def lsbBitsAux : ℕ → ℕ → List Bool
| 0, _ => []
| fuel + 1, n => if n = 0 then [] else (n % 2 == 1) :: lsbBitsAux fuel (n / 2)

/-- LSB-first binary digits of `n` (empty for `0`); fuel `n` always suffices. -/
def lsbBits (n : ℕ) : List Bool := lsbBitsAux n n

/-- Python's `bin(number)[2:]` as an MSB-first bit list; note `bin(0)[2:]` is
the one-character string `"0"`. -/
def pyBin (n : ℕ) : List Bool := if n = 0 then [false] else (lsbBits n).reverse

/-- Model of `to_binary(number, nbits)`: with `nbits = none` the bare binary
string; with `some nb`, when `nb` is smaller than the length of the binary
string the Python code prints an error and implicitly returns `None`
(modelled as `none`), otherwise the string zero-padded on the left to `nb`
characters. Bits are MSB-first Booleans, `true` for the character `1`. -/
def to_binary (number : ℕ) (nbits : Option ℕ) : Option (List Bool) :=
match nbits with
| none => some (pyBin number)
| some nb =>
  if nb < (pyBin number).length then none
  else some (List.replicate (nb - (pyBin number).length) false ++ pyBin number)

/-- Python's `rstrip('0')` on an MSB-first bit list: drop trailing `false`s. -/
def rstrip : List Bool → List Bool
| [] => []
| b :: rest =>
  match rstrip rest with
  | [] => if b then [true] else []
  | r => b :: r

/-- Wires `nqubits-1, nqubits-2, ..., nqubits-position-1` receiving the
multi-controlled Z appended at `position` (Python
`range(nqubits-1, nqubits-position-2, -1)`). -/
def mczWires (n pos : ℕ) : List ℕ := (List.range (pos + 1)).map (fun j => n - 1 - j)

/-- First-bit special case of `oracle_less_than`: an X-Z-X sandwich on the top
wire when the leading bit is `1`, a single X otherwise. -/
def firstGates (b : Bool) (n : ℕ) : List Gate :=
if b then [Gate.x (n - 1), Gate.z (n - 1), Gate.x (n - 1)] else [Gate.x (n - 1)]

/-- Main loop of `oracle_less_than` over the remaining bits starting at
position `pos`: a bare X for a `0` bit, and an X / multi-controlled-Z / X
sandwich for a `1` bit. -/
def loopGates (n : ℕ) : ℕ → List Bool → List Gate
| _, [] => []
| pos, b :: rest =>
  (if b then [Gate.x (n - 1 - pos), Gate.mcz (mczWires n pos), Gate.x (n - 1 - pos)]
   else [Gate.x (n - 1 - pos)]) ++ loopGates n (pos + 1) rest

/-- Final restoring pass of `oracle_less_than`: an X on the wire of every `0`
bit of the stripped binary string. -/
def finalGates (n : ℕ) : ℕ → List Bool → List Gate
| _, [] => []
| pos, b :: rest => (if b then [] else [Gate.x (n - 1 - pos)]) ++ finalGates n (pos + 1) rest

/-- Model of `oracle_less_than(number, nqubits)` from `code_oracle.py`, whose
`multi_control_z` blocks (H, library MCX, H) succeed. Python raises
`AttributeError` when `to_binary` returned `None` (calling `.rstrip` on it)
and `IndexError` when the stripped binary string is empty (`num_binary[0]`);
otherwise it returns the gate list: first-bit case, loop from position `1`,
restoring pass over the whole stripped string. The textually identical
function in `functions_oracles.py` instead crashes inside `multi_control_z`;
see `fo_oracle_less_than`. -/
def oracle_less_than (number n : ℕ) : Except PyErr (List Gate) :=
match to_binary number (some n) with
| none => Except.error PyErr.attributeError
| some binRaw =>
  match rstrip binRaw with
  | [] => Except.error PyErr.indexError
  | b :: rest => Except.ok (firstGates b n ++ loopGates n 1 rest ++ finalGates n 0 (b :: rest))

/-- Main loop of `functions_oracles.py`'s `oracle_less_than`: on a `0` bit an
X gate is appended and the loop continues; on a `1` bit the source appends an
X and then calls `multi_control_z(position + 1)`, which raises TypeError
(its `targ=` keyword does not match `linear_mc_gate`'s `target` parameter),
so the whole call aborts and no circuit is returned. -/
def fo_loopGates (n : ℕ) : ℕ → List Bool → Except PyErr (List Gate)
| _, [] => Except.ok []
| _, true :: _ => Except.error PyErr.typeError
| pos, false :: rest =>
  match fo_loopGates n (pos + 1) rest with
  | Except.error e => Except.error e
  | Except.ok gs => Except.ok (Gate.x (n - 1 - pos) :: gs)

/-- Model of `oracle_less_than(number, nqubits)` from `functions_oracles.py`
as written: identical to `code_oracle.py`'s up to the loop, but every `1` bit
past the leading stripped bit reaches the broken `multi_control_z` call and
raises TypeError; only numbers whose stripped binary is the single character
`1` (i.e. `number = 2^(nqubits-1)`) survive the loop. -/
def fo_oracle_less_than (number n : ℕ) : Except PyErr (List Gate) :=
match to_binary number (some n) with
| none => Except.error PyErr.attributeError
| some binRaw =>
  match rstrip binRaw with
  | [] => Except.error PyErr.indexError
  | b :: rest =>
    match fo_loopGates n 1 rest with
    | Except.error e => Except.error e
    | Except.ok loop => Except.ok (firstGates b n ++ loop ++ finalGates n 0 (b :: rest))

/-- Model of `oracle_greater_than(number, nqubits)` (it exists only in
`functions_oracles.py`): the circuit of `oracle_less_than(number+1, nqubits)`
with `z(0); x(0); z(0); x(0)` appended, in that order, as in the source;
when the inner call raises, the exception propagates and no circuit is
returned. -/
def fo_oracle_greater_than (number n : ℕ) : Except PyErr (List Gate) :=
match fo_oracle_less_than (number + 1) n with
| Except.error e => Except.error e
| Except.ok gs => Except.ok (gs ++ [Gate.z 0, Gate.x 0, Gate.z 0, Gate.x 0])

/-- Model of `array_less_than(number, N)`: `number` entries `-1` followed by
`N - number` entries `1`. -/
def array_less_than (number N : ℕ) : List ℤ :=
List.replicate number (-1) ++ List.replicate (N - number) 1

/-- Model of `diagonal_oracle_less_than(number, nqubits)`: the `Diagonal` gate
it instantiates applies, to basis state `x`, the phase stored at entry `x` of
`array_less_than(number, 2^nqubits)` (the library contract of `Diagonal`), so
the circuit is recorded by that phase vector. -/
def diagonal_oracle_less_than (number n : ℕ) : List ℤ := array_less_than number (2 ^ n)

/-- Two-by-two matrix record, the shape in which the repository passes the
Pauli-Z array `np.array([[1,0],[0,-1]])` to the synthesizer. -/
structure Mat2 where
  a : ℤ
  b : ℤ
  c : ℤ
  d : ℤ
deriving DecidableEq

/-- Pauli-Z matrix `[[1,0],[0,-1]]` instantiated by `multi_control_z`. -/
def zMatrix : Mat2 := ⟨1, 0, 0, -1⟩

/-- Gate alphabet of the `linear_mc_gate` synthesizer, recorded structurally.
`cu u e inv c t` is the singly-controlled `_gate_U_pow(u, e, inv)` — the
`e`-th root of `u`, inverted when `inv` — with control wire `c` and target
wire `t`. `crx sign e c t` is `crx(theta = sign * pi / 2^e)` between control
`c` and target `t`, with `sign` either `1` or `-1`. -/
inductive MCGate (α : Type)
| cu : α → ℕ → Bool → ℕ → ℕ → MCGate α
| crx : ℤ → ℕ → ℕ → ℕ → MCGate α
deriving DecidableEq

/-- Python `range(a, 0, -1)`: `a, a-1, ..., 1`. -/
def rangeDown : ℕ → List ℕ
| 0 => []
| a + 1 => (a + 1) :: rangeDown a

/-- Controls visited by `_build_P_gates`: `range(1, nqubits-1)` when `inv`,
`range(nqubits-2, 0, -1)` otherwise. -/
def pControls (n : ℕ) (inv : Bool) : List ℕ :=
if inv then List.range' 1 (n - 2) else rangeDown (n - 2)

/-- Model of `_build_P_gates`: for each visited control `k` append
`_gate_U_pow(gate, 2^(nqubits-1-k), inv)` controlled on `k`, targeting wire
`nqubits-1`. -/
def build_P_gates {α : Type} (u : α) (n : ℕ) (inv : Bool) : List (MCGate α) :=
(pControls n inv).map (fun k => MCGate.cu u (2 ^ (n - 1 - k)) inv k (n - 1))

/-- Pair comprehension of `_build_Q_gates`:
`[(control, target) for target in range(n) for control in range(start, target)]`. -/
def qpairs (start n : ℕ) : List (ℕ × ℕ) :=
(List.range n).flatMap (fun t => (List.range' start (t - start)).map (fun c => (c, t)))

/-- Exponent rule of `_build_Q_gates`: `target - control`, reduced by one more
when `control == 0`. -/
def qexp (p : ℕ × ℕ) : ℕ := p.2 - p.1 - (if p.1 = 0 then 1 else 0)

/-- First CRX pass of `_build_Q_gates`: pairs starting at control
`1 if inv else 0`, stably sorted by `control + target` descending (Python
`sort(key, reverse=True)`; insertion sort with this comparator keeps equal
keys in original order exactly as Python's stable sort does), each appended
as `crx(+pi / 2^qexp)`. -/
def qPass1 {α : Type} (n : ℕ) (inv : Bool) : List (MCGate α) :=
(List.insertionSort (fun p q => q.1 + q.2 ≤ p.1 + p.2) (qpairs (if inv then 1 else 0) n)).map
  (fun p => MCGate.crx 1 (qexp p) p.1 p.2)

/-- Second CRX pass of `_build_Q_gates`: pairs starting at control
`0 if inv else 1`, stably sorted by `control + target` ascending, each
appended as `crx(-pi / 2^qexp)`. -/
def qPass2 {α : Type} (n : ℕ) (inv : Bool) : List (MCGate α) :=
(List.insertionSort (fun p q => p.1 + p.2 ≤ q.1 + q.2) (qpairs (if inv then 0 else 1) n)).map
  (fun p => MCGate.crx (-1) (qexp p) p.1 p.2)

/-- Model of `_build_Q_gates`: the two CRX passes in order. -/
def build_Q_gates {α : Type} (n : ℕ) (inv : Bool) : List (MCGate α) :=
qPass1 n inv ++ qPass2 n inv

/-- The fresh `nqubits = len(controls)+1`-wire block built by `linear_mc_gate`
before composition onto the caller: direct P pass; the step-2 controlled root
`_gate_U_pow(gate, 2^(nqubits-2), False)` composed at block wires
`[0, target]` — the caller's numeric `target` index, exactly as in the source;
direct Q pass over `nqubits-1` wires; inverse P pass; inverse Q pass.
(The source's `2**(nqubits-2)` is an integer only for `nqubits >= 2`, i.e.
nonempty `controls`, and the step-2 compose is a valid two-wire operation
only for `0 < target <= len(controls)` — at `target = 0` or
`target > len(controls)` the host library rejects the wire list `[0, target]`
instead of appending; theorems below restrict to those domains.) -/
def linear_mc_block {α : Type} (u : α) (controls : List ℕ) (target : ℕ) : List (MCGate α) :=
build_P_gates u (controls.length + 1) false
  ++ [MCGate.cu u (2 ^ (controls.length + 1 - 2)) false 0 target]
  ++ build_Q_gates (controls.length + 1 - 1) false
  ++ build_P_gates u (controls.length + 1) true
  ++ build_Q_gates (controls.length + 1 - 1) true

/-- Wire remap of `circuit.compose(gate_circuit, controls + [target])`: block
wire `w` goes to entry `w` of `controls ++ [target]`. -/
def remapGate {α : Type} (m : List ℕ) : MCGate α → MCGate α
| MCGate.cu u e i c t => MCGate.cu u e i (m.getD c c) (m.getD t t)
| MCGate.crx s e c t => MCGate.crx s e (m.getD c c) (m.getD t t)

/-- Model of `linear_mc_gate(gate, circuit, controls, target)`: the gates the
call appends to `circuit`, namely the fresh block composed at the wire
mapping `controls + [target]`. -/
def linear_mc_gate {α : Type} (u : α) (controls : List ℕ) (target : ℕ) : List (MCGate α) :=
(linear_mc_block u controls target).map (remapGate (controls ++ [target]))

/-- The `multi_control_z(nqubits)` of `functions_oracles.py` as written: it
builds the empty circuit and the Z matrix, controls and target, then line 72
calls `linear_mc_gate(gate=..., circuit=..., controls=..., targ=target)`;
`linear_mc_gate`'s parameter is named `target`, so Python raises TypeError at
the call and the function never appends a gate or returns. -/
def fo_multi_control_z (n : ℕ) : Except PyErr (List (MCGate Mat2)) :=
Except.error PyErr.typeError

/-- The call `multi_control_z(nqubits)` makes once its `targ=` keyword slip is
corrected to `target=` — the behavior its own docstring (and `code_oracle.py`'s
working sibling) describe: `linear_mc_gate` instantiated with the Pauli-Z
matrix, controls `0..nqubits-2`, target `nqubits-1`. -/
def multi_control_z_intended (n : ℕ) : List (MCGate Mat2) :=
linear_mc_gate zMatrix (List.range (n - 1)) (n - 1)

/-- Sort key `control + target` of the Q-ladder passes. -/
def qkey {α : Type} : MCGate α → ℕ
| MCGate.cu _ _ _ c t => c + t
| MCGate.crx _ _ c t => c + t

/-- Both wires of a synthesizer gate lie below `n`. -/
def gateBounded {α : Type} (n : ℕ) : MCGate α → Prop
| MCGate.cu _ _ _ c t => c < n ∧ t < n
| MCGate.crx _ _ c t => c < n ∧ t < n

/-- XOR mask of the X gates standing (not yet undone) on the wires of the `0`
bits of `bs`, where `bs` is read starting at position `pos` (position `p`
lives on wire `n-1-p`). -/
def maskOf (n : ℕ) : ℕ → List Bool → ℕ
| _, [] => 0
| pos, b :: rest => (if b then 0 else 2 ^ (n - 1 - pos)) ^^^ maskOf n (pos + 1) rest

/-- Whether the bits of `x` starting at position `q` (MSB order on `n` wires)
agree with the list `bs`. -/
def agreeBits (x n : ℕ) : ℕ → List Bool → Bool
| _, [] => true
| q, b :: rest => (x.testBit (n - 1 - q) == b) && agreeBits x n (q + 1) rest

/-- Phase accumulated by the `oracle_less_than` loop from position `p` over
bits `bs`, where `agree` records whether `x` matched all earlier bits. -/
def phaseLoop (x n : ℕ) : Bool → ℕ → List Bool → ℤ
| _, _, [] => 1
| agree, p, b :: rest =>
  (if b && agree && !(x.testBit (n - 1 - p)) then -1 else 1) *
    phaseLoop x n (agree && (x.testBit (n - 1 - p) == b)) (p + 1) rest

/-- Numeric value of an MSB-first bit list. -/
def bitsVal : List Bool → ℕ
| [] => 0
| b :: rest => (if b then 2 ^ rest.length else 0) + bitsVal rest

/-- Bits of `x` at positions `p, ..., p+len-1` (MSB order on `n` wires). -/
def xbitsList (x n p len : ℕ) : List Bool :=
(List.range len).map (fun i => x.testBit (n - 1 - (p + i)))



theorem applyGates_append (l1 l2 : List Gate) (s : ℕ) :
    applyGates (l1 ++ l2) s =
      ((applyGates l2 (applyGates l1 s).1).1,
        (applyGates l1 s).2 * (applyGates l2 (applyGates l1 s).1).2) := by
  induction l1 generalizing s with
  | nil => simp [applyGates]
  | cons g gs ih => simp [applyGates, ih, mul_assoc]

theorem lsbBitsAux_congr : ∀ (f1 f2 n : ℕ), n ≤ f1 → n ≤ f2 →
    lsbBitsAux f1 n = lsbBitsAux f2 n := by
  intro f1
  induction f1 with
  | zero =>
    intro f2 n h1 h2
    have hn : n = 0 := Nat.le_zero.mp h1
    subst hn
    cases f2 <;> simp [lsbBitsAux]
  | succ f ih =>
    intro f2 n h1 h2
    by_cases hn : n = 0
    · subst hn; cases f2 <;> simp [lsbBitsAux]
    · obtain ⟨g, rfl⟩ : ∃ g, f2 = g + 1 := ⟨f2 - 1, by omega⟩
      simp only [lsbBitsAux, if_neg hn]
      rw [ih g (n / 2) (by omega) (by omega)]

theorem lsbBits_unfold (n : ℕ) (h : n ≠ 0) :
    lsbBits n = (n % 2 == 1) :: lsbBits (n / 2) := by
  obtain ⟨m, rfl⟩ : ∃ m, n = m + 1 := ⟨n - 1, by omega⟩
  show lsbBitsAux (m + 1) (m + 1) = _
  simp only [lsbBitsAux, if_neg h]
  rw [lsbBitsAux_congr m ((m + 1) / 2) ((m + 1) / 2) (by omega) le_rfl]
  rfl

theorem bitsVal_concat (l : List Bool) (b : Bool) :
    bitsVal (l ++ [b]) = 2 * bitsVal l + (if b then 1 else 0) := by
  induction l with
  | nil => cases b <;> simp [bitsVal]
  | cons a as ih =>
    cases a <;> simp [bitsVal, ih, pow_succ] <;> ring

theorem lsbBits_reverse_val : ∀ n : ℕ, bitsVal (lsbBits n).reverse = n := by
  intro n
  induction n using Nat.strong_induction_on with
  | _ n ih =>
    by_cases hn : n = 0
    · subst hn; simp [lsbBits, lsbBitsAux, bitsVal]
    · rw [lsbBits_unfold n hn]
      simp only [List.reverse_cons]
      rw [bitsVal_concat, ih (n / 2) (by omega)]
      rcases Nat.mod_two_eq_zero_or_one n with h2 | h2 <;> simp [h2] <;> omega

theorem pyBin_val (n : ℕ) : bitsVal (pyBin n) = n := by
  by_cases hn : n = 0
  · subst hn; simp [pyBin, bitsVal]
  · simp [pyBin, hn, lsbBits_reverse_val]

theorem lsbBits_length_le : ∀ n : ℕ, ∀ k : ℕ, n < 2 ^ k → (lsbBits n).length ≤ k := by
  intro n
  induction n using Nat.strong_induction_on with
  | _ n ih =>
    intro k hk
    by_cases hn : n = 0
    · subst hn; simp [lsbBits, lsbBitsAux]
    · obtain ⟨j, rfl⟩ : ∃ j, k = j + 1 := by
        refine ⟨k - 1, ?_⟩
        have : k ≠ 0 := by
          intro h0; subst h0; simp at hk; omega
        omega
      rw [lsbBits_unfold n hn]
      simp only [List.length_cons]
      have hdiv : n / 2 < 2 ^ j := by
        have : (2:ℕ) ^ (j + 1) = 2 ^ j * 2 := pow_succ 2 j
        omega
      have := ih (n / 2) (by omega) j hdiv
      omega

theorem pyBin_length_le (n k : ℕ) (h0 : 0 < n) (hk : n < 2 ^ k) :
    (pyBin n).length ≤ k := by
  have hn : n ≠ 0 := by omega
  simpa [pyBin, hn] using lsbBits_length_le n k hk

theorem bitsVal_lt (l : List Bool) : bitsVal l < 2 ^ l.length := by
  induction l with
  | nil => simp [bitsVal]
  | cons b rest ih =>
    cases b <;> simp [bitsVal, pow_succ] <;> omega

theorem bitsVal_pad (k : ℕ) (l : List Bool) :
    bitsVal (List.replicate k false ++ l) = bitsVal l := by
  induction k with
  | zero => simp
  | succ j ih => simpa [List.replicate_succ, bitsVal] using ih

theorem rstrip_length_le (l : List Bool) : (rstrip l).length ≤ l.length := by
  induction l with
  | nil => simp [rstrip]
  | cons b rest ih =>
    simp only [rstrip]
    cases h : rstrip rest with
    | nil => cases b <;> simp
    | cons r rs =>
      rw [h] at ih
      simp only [List.length_cons]
      exact Nat.succ_le_succ ih

theorem rstrip_eq_nil_iff (l : List Bool) : rstrip l = [] ↔ bitsVal l = 0 := by
  induction l with
  | nil => simp [rstrip, bitsVal]
  | cons b rest ih =>
    simp only [rstrip, bitsVal]
    cases h : rstrip rest with
    | nil =>
      have hrest : bitsVal rest = 0 := ih.mp h
      have hpos : 0 < (2:ℕ) ^ rest.length := pow_pos (by norm_num) _
      cases b <;> simp [hrest] <;> omega
    | cons r rs =>
      have hrest : bitsVal rest ≠ 0 := by
        intro hz
        rw [ih.mpr hz] at h
        cases h
      constructor
      · intro hcon; cases hcon
      · intro hz; exfalso; cases b <;> simp at hz <;> omega

theorem rstrip_val (l : List Bool) :
    bitsVal (rstrip l) * 2 ^ (l.length - (rstrip l).length) = bitsVal l := by
  induction l with
  | nil => simp [rstrip, bitsVal]
  | cons b rest ih =>
    simp only [rstrip]
    cases h : rstrip rest with
    | nil =>
      have hrest : bitsVal rest = 0 := (rstrip_eq_nil_iff rest).mp h
      cases b
      · simp [bitsVal, hrest]
      · simp [bitsVal, hrest]
    | cons r rs =>
      rw [h] at ih
      have hlen : rs.length + 1 ≤ rest.length := by
        have h2 := rstrip_length_le rest
        rw [h] at h2
        simpa using h2
      have hexp : (b :: rest).length - (b :: r :: rs).length = rest.length - (rs.length + 1) := by
        simp
      rw [hexp]
      show ((if b then 2 ^ (r :: rs).length else 0) + bitsVal (r :: rs)) * 2 ^ (rest.length - (rs.length + 1))
          = (if b then 2 ^ rest.length else 0) + bitsVal rest
      have hexp2 : rest.length - (r :: rs).length = rest.length - (rs.length + 1) := by simp
      rw [hexp2] at ih
      rw [add_mul, ih]
      congr 1
      cases b
      · simp
      · simp only [if_pos, List.length_cons]
        rw [← pow_add]
        congr 1
        omega


theorem bool_xor_not (a c : Bool) : (a ^^ !c) = (a == c) := by
  revert a c
  decide

theorem getD_indep {α : Type} (l : List α) (j : ℕ) (hj : j < l.length) (d1 d2 : α) :
    l.getD j d1 = l.getD j d2 := by
  rw [List.getD_eq_getElem?_getD, List.getD_eq_getElem?_getD, List.getElem?_eq_getElem hj]
  rfl

theorem testBit_maskOf (n : ℕ) : ∀ (bs : List Bool) (p q : ℕ), p + bs.length ≤ n → q < n →
    (maskOf n p bs).testBit (n - 1 - q) =
      (if p ≤ q ∧ q < p + bs.length then !(bs.getD (q - p) true) else false) := by
  intro bs
  induction bs with
  | nil =>
    intro p q h hq
    simp [maskOf, Nat.zero_testBit]
  | cons b rest ih =>
    intro p q h hq
    simp only [List.length_cons] at h
    have hpn : p < n := by omega
    simp only [maskOf, Nat.testBit_xor, List.length_cons]
    rw [ih (p + 1) q (by omega) hq]
    have hfirst : (if b then 0 else 2 ^ (n - 1 - p)).testBit (n - 1 - q)
        = (!b && decide (q = p)) := by
      cases b
      · show (2 ^ (n - 1 - p)).testBit (n - 1 - q) = (!false && decide (q = p))
        rw [Nat.testBit_two_pow]
        by_cases hqp : q = p
        · subst hqp; simp
        · have hne : ¬(n - 1 - p = n - 1 - q) := by omega
          simp [hne, hqp]
      · simp [Nat.zero_testBit]
    rw [hfirst]
    rcases Nat.lt_trichotomy q p with h1 | h1 | h1
    · rw [if_neg (by omega), if_neg (by omega)]
      have hd : decide (q = p) = false := by simp; omega
      simp [hd]
    · subst h1
      rw [if_neg (by omega), if_pos (by omega)]
      simp [List.getD_cons_zero, Nat.sub_self]
    · have hd : decide (q = p) = false := by simp; omega
      have hget : (b :: rest).getD (q - p) true = rest.getD (q - p - 1) true := by
        have hq1 : q - p = (q - p - 1) + 1 := by omega
        rw [hq1]
        simp [List.getD_cons_succ]
      by_cases h2 : q < p + (rest.length + 1)
      · rw [if_pos (by omega), if_pos (by omega)]
        rw [hd, Bool.and_false, Bool.false_xor]
        have hidx : q - (p + 1) = q - p - 1 := by omega
        rw [hidx, hget]
      · rw [if_neg (by omega), if_neg (by omega)]
        simp [hd]

theorem maskOf_append (n : ℕ) : ∀ (l1 l2 : List Bool) (p : ℕ),
    maskOf n p (l1 ++ l2) = maskOf n p l1 ^^^ maskOf n (p + l1.length) l2 := by
  intro l1
  induction l1 with
  | nil => intro l2 p; simp [maskOf]
  | cons b rest ih =>
    intro l2 p
    simp only [List.cons_append, maskOf, List.length_cons, List.append_eq]
    rw [ih l2 (p + 1), Nat.xor_assoc]
    have : p + (rest.length + 1) = p + 1 + rest.length := by omega
    rw [this]

theorem agreeBits_append (x n : ℕ) : ∀ (l1 l2 : List Bool) (p : ℕ),
    agreeBits x n p (l1 ++ l2) = (agreeBits x n p l1 && agreeBits x n (p + l1.length) l2) := by
  intro l1
  induction l1 with
  | nil => intro l2 p; simp [agreeBits]
  | cons b rest ih =>
    intro l2 p
    simp only [List.cons_append, agreeBits, List.length_cons, List.append_eq]
    rw [ih l2 (p + 1), Bool.and_assoc]
    have : p + (rest.length + 1) = p + 1 + rest.length := by omega
    rw [this]

theorem agreeBits_iff (x n : ℕ) : ∀ (bs : List Bool) (p : ℕ),
    agreeBits x n p bs = true ↔
      ∀ j, j < bs.length → x.testBit (n - 1 - (p + j)) = bs.getD j false := by
  intro bs
  induction bs with
  | nil => intro p; simp [agreeBits]
  | cons b rest ih =>
    intro p
    simp only [agreeBits, Bool.and_eq_true, beq_iff_eq, ih (p + 1), List.length_cons]
    constructor
    · rintro ⟨h0, hrest⟩ j hj
      cases j with
      | zero => simpa using h0
      | succ i =>
        have heq : p + (i + 1) = (p + 1) + i := by omega
        rw [heq]
        simpa [List.getD_cons_succ] using hrest i (by omega)
    · intro hall
      refine ⟨by simpa using hall 0 (by omega), fun i hi => ?_⟩
      have heq : p + (i + 1) = (p + 1) + i := by omega
      have := hall (i + 1) (by omega)
      rw [heq] at this
      simpa [List.getD_cons_succ] using this

theorem stateBit (x n : ℕ) (pre : List Bool) (q : ℕ) (hpre : pre.length ≤ n) (hq : q < n) :
    (x ^^^ maskOf n 0 pre).testBit (n - 1 - q) =
      (if q < pre.length then (x.testBit (n - 1 - q) == pre.getD q false) else x.testBit (n - 1 - q)) := by
  rw [Nat.testBit_xor, testBit_maskOf n pre 0 q (by omega) hq]
  by_cases h1 : q < pre.length
  · rw [if_pos (by omega), if_pos h1]
    rw [show q - 0 = q from rfl, getD_indep pre q h1 true false, bool_xor_not]
  · rw [if_neg (by omega), if_neg h1]
    simp


theorem mcz_all_eq (x n : ℕ) (pre : List Bool) (hlen : pre.length < n) :
    ((mczWires n pre.length).all fun w =>
        ((x ^^^ maskOf n 0 pre) ^^^ 2 ^ (n - 1 - pre.length)).testBit w)
      = (agreeBits x n 0 pre && !(x.testBit (n - 1 - pre.length))) := by
  have key : ∀ j, j ≤ pre.length →
      ((x ^^^ maskOf n 0 pre) ^^^ 2 ^ (n - 1 - pre.length)).testBit (n - 1 - j)
        = (if j < pre.length then (x.testBit (n - 1 - j) == pre.getD j false)
           else !(x.testBit (n - 1 - j))) := by
    intro j hj
    rw [Nat.testBit_xor, stateBit x n pre j (by omega) (by omega)]
    by_cases h1 : j < pre.length
    · rw [if_pos h1, if_pos h1, Nat.testBit_two_pow]
      have hne : ¬(n - 1 - pre.length = n - 1 - j) := by omega
      simp [hne]
    · have hj2 : j = pre.length := by omega
      subst hj2
      rw [if_neg h1, if_neg h1, Nat.testBit_two_pow]
      simp
  have hmem : ∀ j, j ≤ pre.length → n - 1 - j ∈ mczWires n pre.length := by
    intro j hj
    exact List.mem_map.mpr ⟨j, List.mem_range.mpr (by omega), rfl⟩
  rw [Bool.eq_iff_iff]
  constructor
  · intro hall
    have hall2 : ∀ j, j ≤ pre.length →
        ((x ^^^ maskOf n 0 pre) ^^^ 2 ^ (n - 1 - pre.length)).testBit (n - 1 - j) = true :=
      fun j hj => List.all_eq_true.mp hall (n - 1 - j) (hmem j hj)
    have hagree : agreeBits x n 0 pre = true := by
      rw [agreeBits_iff]
      intro j hjlen
      have h2 := hall2 j (by omega)
      rw [key j (by omega), if_pos hjlen] at h2
      simpa using h2
    have hlast : x.testBit (n - 1 - pre.length) = false := by
      have h2 := hall2 pre.length le_rfl
      rw [key pre.length le_rfl, if_neg (by omega)] at h2
      simpa using h2
    simp [hagree, hlast]
  · intro hrhs
    rw [Bool.and_eq_true] at hrhs
    obtain ⟨hagree, hlast⟩ := hrhs
    rw [agreeBits_iff] at hagree
    rw [List.all_eq_true]
    intro w hw
    obtain ⟨j, hj, rfl⟩ := List.mem_map.mp hw
    rw [List.mem_range] at hj
    rw [key j (by omega)]
    by_cases h1 : j < pre.length
    · rw [if_pos h1]
      have := hagree j h1
      simpa using this
    · rw [if_neg h1]
      have hj2 : j = pre.length := by omega
      subst hj2
      simpa using hlast

theorem phaseLoop_false (x n : ℕ) : ∀ (bs : List Bool) (p : ℕ), phaseLoop x n false p bs = 1 := by
  intro bs
  induction bs with
  | nil => intro p; simp [phaseLoop]
  | cons b rest ih => intro p; simp [phaseLoop, ih]

theorem finalGates_spec (n : ℕ) : ∀ (bs : List Bool) (p s : ℕ),
    applyGates (finalGates n p bs) s = (s ^^^ maskOf n p bs, 1) := by
  intro bs
  induction bs with
  | nil => intro p s; simp [finalGates, applyGates, maskOf]
  | cons b rest ih =>
    intro p s
    cases b
    · simp [finalGates, applyGates, applyGate, maskOf, ih, Nat.xor_assoc]
    · simp [finalGates, maskOf, ih, Nat.zero_xor]

theorem loopGates_spec (x n : ℕ) : ∀ (rest pre : List Bool),
    pre.length + rest.length ≤ n →
    applyGates (loopGates n pre.length rest) (x ^^^ maskOf n 0 pre) =
      (x ^^^ maskOf n 0 (pre ++ rest),
        phaseLoop x n (agreeBits x n 0 pre) pre.length rest) := by
  intro rest
  induction rest with
  | nil =>
    intro pre h
    simp [loopGates, applyGates, phaseLoop]
  | cons b rest ih =>
    intro pre h
    simp only [List.length_cons] at h
    have hp : pre.length < n := by omega
    have hlen1 : (pre ++ [b]).length = pre.length + 1 := by simp
    have hih := ih (pre ++ [b]) (by simp; omega)
    rw [hlen1] at hih
    have hassoc : (pre ++ [b]) ++ rest = pre ++ b :: rest := by simp
    rw [hassoc] at hih
    have hagreeapp : agreeBits x n 0 (pre ++ [b])
        = (agreeBits x n 0 pre && (x.testBit (n - 1 - pre.length) == b)) := by
      rw [agreeBits_append]
      simp [agreeBits]
    rw [hagreeapp] at hih
    cases b
    · have hmask : maskOf n 0 (pre ++ [false]) = maskOf n 0 pre ^^^ 2 ^ (n - 1 - pre.length) := by
        rw [maskOf_append]
        simp [maskOf]
      rw [hmask] at hih
      show applyGates (Gate.x (n - 1 - pre.length) :: loopGates n (pre.length + 1) rest) _ = _
      simp only [applyGates, applyGate]
      rw [← Nat.xor_assoc] at hih
      rw [hih]
      simp only [phaseLoop]
      simp
    · have hmask : maskOf n 0 (pre ++ [true]) = maskOf n 0 pre := by
        rw [maskOf_append]
        simp [maskOf]
      rw [hmask] at hih
      show applyGates
        (Gate.x (n - 1 - pre.length) :: Gate.mcz (mczWires n pre.length)
          :: Gate.x (n - 1 - pre.length) :: loopGates n (pre.length + 1) rest) _ = _
      simp only [applyGates, applyGate]
      rw [Nat.xor_cancel_right, hih]
      simp only [mcz_all_eq x n pre hp]
      simp only [phaseLoop]
      cases hA : agreeBits x n 0 pre
      · simp [phaseLoop_false]
      · cases hX : x.testBit (n - 1 - pre.length)
        · simp
        · simp

theorem firstLoop_spec (x n : ℕ) (b : Bool) (rest : List Bool) (h : 1 + rest.length ≤ n) :
    applyGates (firstGates b n ++ loopGates n 1 rest) x =
      (x ^^^ maskOf n 0 (b :: rest), phaseLoop x n true 0 (b :: rest)) := by
  rw [applyGates_append]
  have hloop := loopGates_spec x n rest [b] (by simpa using h)
  simp only [List.length_cons, List.length_nil, Nat.zero_add, List.cons_append,
    List.nil_append] at hloop
  have hagree : agreeBits x n 0 [b] = (x.testBit (n - 1) == b) := by
    simp [agreeBits]
  rw [hagree] at hloop
  cases b
  · have hfirst : applyGates (firstGates false n) x = (x ^^^ maskOf n 0 [false], 1) := by
      simp [firstGates, applyGates, applyGate, maskOf]
    rw [hfirst]
    rw [hloop]
    simp only [phaseLoop]
    simp
  · have hfirst : applyGates (firstGates true n) x
        = (x, if !(x.testBit (n - 1)) then -1 else 1) := by
      simp only [firstGates, if_pos, applyGates, applyGate]
      rw [Nat.xor_cancel_right]
      simp only [Nat.testBit_xor, Nat.testBit_two_pow]
      simp [Bool.xor_true]
    rw [hfirst]
    have hx0 : x ^^^ maskOf n 0 [true] = x := by simp [maskOf]
    rw [hx0] at hloop
    rw [hloop]
    simp only [phaseLoop]
    cases hX : x.testBit (n - 1)
    · simp [hX]
    · simp [hX]


theorem xbitsList_length (x n p len : ℕ) : (xbitsList x n p len).length = len := by
  simp [xbitsList]

theorem xbitsList_cons (x n p len : ℕ) :
    xbitsList x n p (len + 1) = x.testBit (n - 1 - p) :: xbitsList x n (p + 1) len := by
  simp only [xbitsList, List.range_succ_eq_map, List.map_cons, List.map_map]
  refine List.cons_eq_cons.mpr ⟨by simp, ?_⟩
  apply List.map_congr_left
  intro i _
  simp only [Function.comp_apply]
  congr 1
  omega

theorem xbitsList_snoc (x n p len : ℕ) :
    xbitsList x n p (len + 1) = xbitsList x n p len ++ [x.testBit (n - 1 - (p + len))] := by
  simp [xbitsList, List.range_succ]

theorem xbitsList_val (x n : ℕ) (hx : x < 2 ^ n) : ∀ (len p : ℕ), p + len ≤ n →
    bitsVal (xbitsList x n p len) = x / 2 ^ (n - p - len) % 2 ^ len := by
  intro len
  induction len with
  | zero =>
    intro p h
    simp [xbitsList, bitsVal, Nat.mod_one]
  | succ len ih =>
    intro p h
    rw [xbitsList_snoc, bitsVal_concat, ih p (by omega)]
    have he2 : n - 1 - (p + len) = n - p - len - 1 := by omega
    rw [he2]
    have hyv : x / 2 ^ (n - p - len) = x / 2 ^ (n - p - len - 1) / 2 := by
      have hsplit : n - p - len = (n - p - len - 1) + 1 := by omega
      generalize hE : n - p - len - 1 = E at hsplit ⊢
      rw [hsplit, pow_succ, Nat.div_div_eq_div_mul]
    rw [hyv]
    have he3 : n - p - (len + 1) = n - p - len - 1 := by omega
    rw [he3]
    have hbit : (if x.testBit (n - p - len - 1) then 1 else 0)
        = x / 2 ^ (n - p - len - 1) % 2 := by
      rw [Nat.testBit_to_div_mod]
      rcases Nat.mod_two_eq_zero_or_one (x / 2 ^ (n - p - len - 1)) with h2 | h2 <;> simp [h2]
    rw [hbit]
    have hmod : x / 2 ^ (n - p - len - 1) % 2 ^ (len + 1)
        = x / 2 ^ (n - p - len - 1) % 2 + 2 * (x / 2 ^ (n - p - len - 1) / 2 % 2 ^ len) := by
      rw [pow_succ, mul_comm ((2:ℕ) ^ len) 2, Nat.mod_mul]
    rw [hmod]
    ring

theorem phaseLoop_true (x n : ℕ) : ∀ (bs : List Bool) (p : ℕ), p + bs.length ≤ n →
    phaseLoop x n true p bs =
      (if bitsVal (xbitsList x n p bs.length) < bitsVal bs then -1 else 1) := by
  intro bs
  induction bs with
  | nil =>
    intro p h
    simp [phaseLoop, xbitsList, bitsVal]
  | cons b rest ih =>
    intro p h
    simp only [List.length_cons] at h ⊢
    simp only [xbitsList_cons]
    have hXlt : bitsVal (xbitsList x n (p + 1) rest.length) < 2 ^ rest.length := by
      have := bitsVal_lt (xbitsList x n (p + 1) rest.length)
      rwa [xbitsList_length] at this
    have hBlt : bitsVal rest < 2 ^ rest.length := bitsVal_lt rest
    simp only [phaseLoop, bitsVal, xbitsList_length]
    cases hX : x.testBit (n - 1 - p)
    · cases b
      · simp [ih (p + 1) (by omega)]
      · have hcond : bitsVal (xbitsList x n (p + 1) rest.length)
            < 2 ^ rest.length + bitsVal rest := by omega
        simp [phaseLoop_false, hcond]
    · cases b
      · have hcond : ¬(2 ^ rest.length + bitsVal (xbitsList x n (p + 1) rest.length)
            < bitsVal rest) := by omega
        simp [phaseLoop_false, hcond]
      · simp [ih (p + 1) (by omega)]

theorem oracle_core (n N x : ℕ) (h0 : 0 < N) (h1 : N < 2 ^ n) (hx : x < 2 ^ n) :
    ∃ gs, oracle_less_than N n = Except.ok gs ∧
      applyGates gs x = (x, if x < N then -1 else 1) := by
  have hlen : (pyBin N).length ≤ n := pyBin_length_le N n h0 h1
  set binRaw := List.replicate (n - (pyBin N).length) false ++ pyBin N with hbinRaw
  have htb : to_binary N (some n) = some binRaw := by
    simp [to_binary, Nat.not_lt.mpr hlen]
  have hbrlen : binRaw.length = n := by
    rw [hbinRaw]
    simp
    omega
  have hbrval : bitsVal binRaw = N := by rw [hbinRaw, bitsVal_pad, pyBin_val]
  have hne : rstrip binRaw ≠ [] := by
    intro hcon
    have := (rstrip_eq_nil_iff binRaw).mp hcon
    omega
  obtain ⟨b, rest, hbr⟩ : ∃ b rest, rstrip binRaw = b :: rest := by
    cases hsr : rstrip binRaw with
    | nil => exact absurd hsr hne
    | cons c cs => exact ⟨c, cs, rfl⟩
  have hoeq : oracle_less_than N n =
      Except.ok (firstGates b n ++ loopGates n 1 rest ++ finalGates n 0 (b :: rest)) := by
    rw [oracle_less_than, htb]
    simp only [hbr]
  have hstriplen : rest.length + 1 ≤ n := by
    have h2 := rstrip_length_le binRaw
    rw [hbr, hbrlen] at h2
    simpa using h2
  have hNval : bitsVal (b :: rest) * 2 ^ (n - (rest.length + 1)) = N := by
    have h2 := rstrip_val binRaw
    rw [hbr, hbrlen, hbrval] at h2
    simpa using h2
  refine ⟨_, hoeq, ?_⟩
  rw [applyGates_append, firstLoop_spec x n b rest (by omega), finalGates_spec]
  simp only [Nat.xor_cancel_right]
  rw [phaseLoop_true x n (b :: rest) 0 (by simpa using hstriplen)]
  have hdivlt : x / 2 ^ (n - (rest.length + 1)) < 2 ^ (rest.length + 1) := by
    rw [Nat.div_lt_iff_lt_mul (pow_pos (by norm_num) _)]
    calc x < 2 ^ n := hx
    _ = 2 ^ (rest.length + 1) * 2 ^ (n - (rest.length + 1)) := by
        rw [← pow_add]
        congr 1
        omega
  have hxb : bitsVal (xbitsList x n 0 (b :: rest).length) = x / 2 ^ (n - (rest.length + 1)) := by
    rw [xbitsList_val x n hx (b :: rest).length 0 (by simpa using hstriplen)]
    simp only [List.length_cons]
    rw [show n - 0 - (rest.length + 1) = n - (rest.length + 1) from by omega,
      Nat.mod_eq_of_lt hdivlt]
  rw [hxb]
  have hiff : (x / 2 ^ (n - (rest.length + 1)) < bitsVal (b :: rest)) ↔ x < N := by
    rw [Nat.div_lt_iff_lt_mul (pow_pos (by norm_num) _), hNval]
  rw [if_congr hiff rfl rfl]
  simp


theorem rangeDown_eq_reverse : ∀ a : ℕ, rangeDown a = (List.range' 1 a).reverse := by
  intro a
  induction a with
  | zero => simp [rangeDown]
  | succ b ih =>
    show (b + 1) :: rangeDown b = (List.range' 1 (b + 1)).reverse
    rw [ih, List.range'_concat, List.reverse_append]
    simp [Nat.add_comm]

theorem rangeDown_length : ∀ a : ℕ, (rangeDown a).length = a := by
  intro a
  induction a with
  | zero => rfl
  | succ b ih => simp [rangeDown, ih]

theorem mem_rangeDown : ∀ (a k : ℕ), k ∈ rangeDown a ↔ 1 ≤ k ∧ k ≤ a := by
  intro a
  induction a with
  | zero =>
    intro k
    simp only [rangeDown, List.not_mem_nil, false_iff]
    omega
  | succ b ih =>
    intro k
    simp only [rangeDown, List.mem_cons, ih]
    omega

theorem pControls_length (n : ℕ) (inv : Bool) : (pControls n inv).length = n - 2 := by
  cases inv <;> simp [pControls, rangeDown_length]

theorem pControls_mirror (n : ℕ) : pControls n false = (pControls n true).reverse := by
  simp [pControls, rangeDown_eq_reverse]

theorem mem_pControls (n : ℕ) (inv : Bool) (k : ℕ) :
    k ∈ pControls n inv ↔ 1 ≤ k ∧ k ≤ n - 2 := by
  cases inv
  · simp [pControls, mem_rangeDown]
  · simp only [pControls, if_pos, List.mem_range'_1]
    omega

theorem mem_qpairs (s n c t : ℕ) : (c, t) ∈ qpairs s n ↔ s ≤ c ∧ c < t ∧ t < n := by
  simp only [qpairs, List.mem_flatMap, List.mem_map, List.mem_range, List.mem_range'_1,
    Prod.mk.injEq]
  constructor
  · rintro ⟨t2, ht2, c2, hc2, rfl, rfl⟩
    omega
  · rintro ⟨h1, h2, h3⟩
    exact ⟨t, h3, c, by omega, rfl, rfl⟩

theorem qpairs_succ_length (s k : ℕ) :
    (qpairs s (k + 1)).length = (qpairs s k).length + (k - s) := by
  simp [qpairs, List.range_succ, List.flatMap_append]

theorem qpairs_both (m : ℕ) :
    (qpairs 0 m).length + (qpairs 1 m).length = (m - 1) * (m - 1) := by
  induction m with
  | zero => rfl
  | succ k ih =>
    rw [qpairs_succ_length, qpairs_succ_length]
    cases k with
    | zero => simpa using ih
    | succ j =>
      simp only [Nat.add_sub_cancel] at ih ⊢
      have hx : (j + 1) * (j + 1) = j * j + 2 * j + 1 := by ring
      omega

theorem build_Q_gates_length {α : Type} (m : ℕ) (inv : Bool) :
    (build_Q_gates (α := α) m inv).length
      = (qpairs 0 m).length + (qpairs 1 m).length := by
  cases inv
  · simp [build_Q_gates, qPass1, qPass2, List.length_insertionSort]
  · simp [build_Q_gates, qPass1, qPass2, List.length_insertionSort]
    omega

theorem linear_mc_gate_length {α : Type} (u : α) (cs : List ℕ) (t : ℕ) (h : 1 ≤ cs.length) :
    (linear_mc_gate u cs t).length = 2 * cs.length ^ 2 - 2 * cs.length + 1 := by
  obtain ⟨k, hk⟩ : ∃ k, cs.length = k + 1 := ⟨cs.length - 1, by omega⟩
  simp only [linear_mc_gate, List.length_map, linear_mc_block, List.length_append,
    build_P_gates, pControls_length, build_Q_gates_length,
    List.length_cons, List.length_nil, hk]
  simp only [show k + 1 + 1 - 1 = k + 1 from rfl, show k + 1 + 1 - 2 = k from rfl]
  have hboth := qpairs_both (k + 1)
  simp only [Nat.add_sub_cancel] at hboth
  have hx : 2 * (k + 1) ^ 2 = 2 * (k * k) + 4 * k + 2 := by ring
  omega

theorem remapGate_range_id {α : Type} (n : ℕ) (g : MCGate α) (hg : gateBounded n g) :
    remapGate (List.range n) g = g := by
  have hid : ∀ w, w < n → (List.range n)[w]?.getD w = w := by
    intro w hw
    rw [List.getElem?_range hw]
    rfl
  cases g with
  | cu u e i c t =>
    have h12 : c < n ∧ t < n := hg
    simp [remapGate, hid c h12.1, hid t h12.2]
  | crx s e c t =>
    have h12 : c < n ∧ t < n := hg
    simp [remapGate, hid c h12.1, hid t h12.2]

theorem build_Q_gates_bounded {α : Type} (m : ℕ) (inv : Bool) :
    ∀ g ∈ build_Q_gates (α := α) m inv, gateBounded m g := by
  intro g hg
  simp only [build_Q_gates, List.mem_append, qPass1, qPass2, List.mem_map] at hg
  rcases hg with ⟨p, hp, rfl⟩ | ⟨p, hp, rfl⟩
  · have hp2 : p ∈ qpairs (if inv then 1 else 0) m :=
      (List.perm_insertionSort _ _).mem_iff.mp hp
    have := (mem_qpairs (if inv then 1 else 0) m p.1 p.2).mp (by simpa using hp2)
    exact ⟨by omega, by omega⟩
  · have hp2 : p ∈ qpairs (if inv then 0 else 1) m :=
      (List.perm_insertionSort _ _).mem_iff.mp hp
    have := (mem_qpairs (if inv then 0 else 1) m p.1 p.2).mp (by simpa using hp2)
    exact ⟨by omega, by omega⟩

theorem build_P_gates_bounded {α : Type} (u : α) (n : ℕ) (inv : Bool) (hn : 1 ≤ n) :
    ∀ g ∈ build_P_gates u n inv, gateBounded n g := by
  intro g hg
  simp only [build_P_gates, List.mem_map] at hg
  obtain ⟨k, hk, rfl⟩ := hg
  have := (mem_pControls n inv k).mp hk
  exact ⟨by omega, by omega⟩

theorem linear_mc_block_bounded {α : Type} (u : α) (cs : List ℕ) (t : ℕ)
    (ht : t < cs.length + 1) :
    ∀ g ∈ linear_mc_block u cs t, gateBounded (cs.length + 1) g := by
  intro g hg
  simp only [linear_mc_block, List.mem_append] at hg
  have hq : ∀ g2, g2 ∈ build_Q_gates (α := α) (cs.length + 1 - 1) false ∨
      g2 ∈ build_Q_gates (α := α) (cs.length + 1 - 1) true →
      gateBounded (cs.length + 1) g2 := by
    intro g2 hg2
    have hb : gateBounded (cs.length + 1 - 1) g2 := by
      rcases hg2 with hg2 | hg2
      · exact build_Q_gates_bounded _ false g2 hg2
      · exact build_Q_gates_bounded _ true g2 hg2
    cases g2 with
    | cu u2 e i c tt =>
      have h12 : c < cs.length + 1 - 1 ∧ tt < cs.length + 1 - 1 := hb
      exact ⟨by omega, by omega⟩
    | crx s e c tt =>
      have h12 : c < cs.length + 1 - 1 ∧ tt < cs.length + 1 - 1 := hb
      exact ⟨by omega, by omega⟩
  rcases hg with ((((hg | hg) | hg) | hg) | hg)
  · exact build_P_gates_bounded u _ false (by omega) g hg
  · have hgeq : g = MCGate.cu u (2 ^ (cs.length + 1 - 2)) false 0 t := by simpa using hg
    subst hgeq
    exact ⟨by omega, ht⟩
  · exact hq g (Or.inl hg)
  · exact build_P_gates_bounded u _ true (by omega) g hg
  · exact hq g (Or.inr hg)

theorem multi_control_z_eq_block (n : ℕ) (h : 2 ≤ n) :
    multi_control_z_intended n = linear_mc_block zMatrix (List.range (n - 1)) (n - 1) := by
  rw [multi_control_z_intended, linear_mc_gate]
  have hlen : (List.range (n - 1)).length = n - 1 := List.length_range _
  have hmap : List.range (n - 1) ++ [n - 1] = List.range n := by
    rw [← List.range_succ]
    congr 1
    omega
  rw [hmap]
  have hn1 : (List.range (n - 1)).length + 1 = n := by rw [hlen]; omega
  calc List.map (remapGate (List.range n)) (linear_mc_block zMatrix (List.range (n - 1)) (n - 1))
      = List.map id (linear_mc_block zMatrix (List.range (n - 1)) (n - 1)) := by
        apply List.map_congr_left
        intro g hg
        have hb := linear_mc_block_bounded zMatrix (List.range (n - 1)) (n - 1)
          (by omega) g hg
        rw [hn1] at hb
        exact remapGate_range_id n g hb
  _ = linear_mc_block zMatrix (List.range (n - 1)) (n - 1) := List.map_id _

theorem step2_gate {α : Type} (u : α) (cs : List ℕ) (t : ℕ) (h : 1 ≤ cs.length) :
    (linear_mc_block u cs t)[cs.length - 1]? =
      some (MCGate.cu u (2 ^ (cs.length + 1 - 2)) false 0 t) := by
  have hplen : (build_P_gates u (cs.length + 1) false).length = cs.length - 1 := by
    simp [build_P_gates, pControls_length]
  rw [linear_mc_block]
  rw [List.getElem?_append_left (by simp [hplen] <;> omega),
    List.getElem?_append_left (by simp [hplen] <;> omega),
    List.getElem?_append_left (by simp [hplen] <;> omega),
    List.getElem?_append_right hplen.le]
  rw [hplen, Nat.sub_self]
  rfl


theorem rstrip_getLast (l : List Bool) (h : rstrip l ≠ []) :
    (rstrip l).getLast? = some true := by
  induction l with
  | nil => simp [rstrip] at h
  | cons b rest ih =>
    simp only [rstrip] at h ⊢
    cases h2 : rstrip rest with
    | nil =>
      rw [h2] at h
      cases b
      · simp at h
      · simp
    | cons r rs =>
      rw [h2] at ih
      rw [List.getLast?_cons_cons]
      exact ih (by simp)

theorem getLast?_is_mem : ∀ (l : List Bool) (a : Bool), l.getLast? = some a → a ∈ l := by
  intro l
  induction l with
  | nil => intro a h; cases h
  | cons b rest ih =>
    intro a h
    cases rest with
    | nil =>
      simp at h
      simp [h]
    | cons r rs =>
      rw [List.getLast?_cons_cons] at h
      exact List.mem_cons_of_mem b (ih a h)

theorem fo_loopGates_error (n : ℕ) : ∀ (rest : List Bool) (pos : ℕ), true ∈ rest →
    fo_loopGates n pos rest = Except.error PyErr.typeError := by
  intro rest
  induction rest with
  | nil =>
    intro pos h
    simp at h
  | cons b r ih =>
    intro pos h
    cases b
    · have hr : true ∈ r := by simpa using h
      simp only [fo_loopGates]
      rw [ih (pos + 1) hr]
    · rfl

theorem fo_oracle_error (n N : ℕ) (h0 : 0 < N) (h1 : N < 2 ^ n) (hne : N ≠ 2 ^ (n - 1)) :
    fo_oracle_less_than N n = Except.error PyErr.typeError := by
  have hlen : (pyBin N).length ≤ n := pyBin_length_le N n h0 h1
  set binRaw := List.replicate (n - (pyBin N).length) false ++ pyBin N with hbinRaw
  have htb : to_binary N (some n) = some binRaw := by
    simp [to_binary, Nat.not_lt.mpr hlen]
  have hbrlen : binRaw.length = n := by
    rw [hbinRaw]
    simp
    omega
  have hbrval : bitsVal binRaw = N := by rw [hbinRaw, bitsVal_pad, pyBin_val]
  have hne2 : rstrip binRaw ≠ [] := by
    intro hcon
    have := (rstrip_eq_nil_iff binRaw).mp hcon
    omega
  obtain ⟨b, rest, hbr⟩ : ∃ b rest, rstrip binRaw = b :: rest := by
    cases hsr : rstrip binRaw with
    | nil => exact absurd hsr hne2
    | cons c cs => exact ⟨c, cs, rfl⟩
  have hrest : rest ≠ [] := by
    intro hrnil
    subst hrnil
    have hlast := rstrip_getLast binRaw hne2
    rw [hbr] at hlast
    simp at hlast
    subst hlast
    have hv := rstrip_val binRaw
    rw [hbr, hbrlen, hbrval] at hv
    simp [bitsVal] at hv
    exact hne hv.symm
  have htruein : true ∈ rest := by
    have hlast := rstrip_getLast binRaw hne2
    rw [hbr] at hlast
    obtain ⟨r, rs, rfl⟩ : ∃ r rs, rest = r :: rs := by
      cases rest with
      | nil => exact absurd rfl hrest
      | cons r rs => exact ⟨r, rs, rfl⟩
    rw [List.getLast?_cons_cons] at hlast
    exact getLast?_is_mem _ _ hlast
  rw [fo_oracle_less_than, htb]
  simp only [hbr]
  rw [fo_loopGates_error n rest 1 htruein]

/-- C1: the claimed phase behavior — the circuit maps each basis state
x < 2^nqubits back to itself with phase -1 iff x < N — is the evident intent
and holds of code_oracle.py's oracle_less_than for every 0 < N < 2^nqubits
(first conjunct); the textually identical oracle_less_than of
functions_oracles.py, the claim's other cited source, instead raises
TypeError through the broken multi_control_z call (keyword targ= against
parameter target) for every such N except N = 2^(nqubits-1), building no
circuit at all (second conjunct) — a code bug, not a spec error. -/
theorem C1_oracle_less_than_phase (n N x : ℕ) (h0 : 0 < N) (h1 : N < 2 ^ n)
    (hx : x < 2 ^ n) :
    (∃ gs, oracle_less_than N n = Except.ok gs ∧
      applyGates gs x = (x, if x < N then -1 else 1)) ∧
    (N ≠ 2 ^ (n - 1) → fo_oracle_less_than N n = Except.error PyErr.typeError) :=
  ⟨oracle_core n N x h0 h1 hx, fun hne => fo_oracle_error n N h0 h1 hne⟩

/-- Witness for C1 at nqubits = 3, N = 3, x = 2. -/
theorem C1_witness :
    0 < 3 ∧ 3 < 2 ^ 3 ∧ 2 < 2 ^ 3 ∧
      ((∃ gs, oracle_less_than 3 3 = Except.ok gs ∧
        applyGates gs 2 = (2, if 2 < 3 then -1 else 1)) ∧
      (3 ≠ 2 ^ (3 - 1) → fo_oracle_less_than 3 3 = Except.error PyErr.typeError)) :=
  ⟨by decide, by decide, by decide,
    C1_oracle_less_than_phase 3 3 2 (by decide) (by decide) (by decide)⟩

/-- C2 counterexample: the two-qubit-gate counts of linear_mc_gate at 1, 2 and
3 controls are 1, 5 and 13, values no affine (linear-growth) function of the
number of controls can fit, so the count does not grow linearly. -/
theorem C2_counterexample :
    (linear_mc_gate zMatrix [0] 1).length = 1 ∧
    (linear_mc_gate zMatrix [0, 1] 2).length = 5 ∧
    (linear_mc_gate zMatrix [0, 1, 2] 3).length = 13 ∧
    ¬ ∃ a b : ℤ, a * 1 + b = 1 ∧ a * 2 + b = 5 ∧ a * 3 + b = 13 := by
  refine ⟨by decide, by decide, by decide, ?_⟩
  rintro ⟨a, b, h1, h2, h3⟩
  omega

/-- C2 amended: for every unitary U, nonempty control list and target, the
number of two-qubit gates appended by linear_mc_gate is exactly
2c^2 - 2c + 1 with c = len(controls): quadratic in the number of controls
(every appended gate acts on two qubits), far below the exponential count of
a naive truth-table decomposition, but not linear. -/
theorem C2_amended {α : Type} (u : α) (controls : List ℕ) (target : ℕ)
    (h : 1 ≤ controls.length) :
    (linear_mc_gate u controls target).length
      = 2 * controls.length ^ 2 - 2 * controls.length + 1 :=
  linear_mc_gate_length u controls target h

/-- Witness for the amended C2 at two controls. -/
theorem C2_witness :
    1 ≤ ([0, 1] : List ℕ).length ∧
      (linear_mc_gate zMatrix [0, 1] 2).length
        = 2 * ([0, 1] : List ℕ).length ^ 2 - 2 * ([0, 1] : List ℕ).length + 1 :=
  ⟨by decide, C2_amended zMatrix [0, 1] 2 (by decide)⟩

/-- C3: the claim says multi_control_z(nqubits) succeeds and appends the
linear_mc_gate block instantiated with Pauli-Z, controls 0..nqubits-2, target
nqubits-1 — the behavior its docstring describes. The code as written never
gets there: line 72 passes keyword targ= to linear_mc_gate, whose parameter
is named target, so every call raises TypeError (first conjunct). The
keyword-corrected call does produce exactly what the claim describes, and —
the wire mapping controls + [target] being the identity — the appended gates
are the fresh synthesizer block itself (remaining conjuncts): the claim is
the intent and the `targ=` keyword a slip. -/
theorem C3_multi_control_z (n : ℕ) (h : 2 ≤ n) :
    fo_multi_control_z n = Except.error PyErr.typeError ∧
    multi_control_z_intended n = linear_mc_gate zMatrix (List.range (n - 1)) (n - 1) ∧
    multi_control_z_intended n = linear_mc_block zMatrix (List.range (n - 1)) (n - 1) :=
  ⟨rfl, rfl, multi_control_z_eq_block n h⟩

/-- Witness for C3 at nqubits = 3. -/
theorem C3_witness :
    2 ≤ 3 ∧ (fo_multi_control_z 3 = Except.error PyErr.typeError ∧
      multi_control_z_intended 3 = linear_mc_gate zMatrix (List.range 2) 2 ∧
      multi_control_z_intended 3 = linear_mc_block zMatrix (List.range 2) 2) :=
  ⟨by decide, C3_multi_control_z 3 (by decide)⟩

/-- C4 counterexample: with controls [0, 2] and caller target 1 — a disjoint,
in-range target, so block wires [0, 1] are a wire list the host library
accepts — the step-2 gate of the fresh block (the element at index 1, right
after the direct P pass) targets block wire 1, the caller's numeric target,
and not the block's last wire 2 as the claim asserts. -/
theorem C4_counterexample :
    (linear_mc_block zMatrix [0, 2] 1)[1]?
        = some (MCGate.cu zMatrix 2 false 0 1) ∧
    (linear_mc_block zMatrix [0, 2] 1)[1]?
        ≠ some (MCGate.cu zMatrix 2 false 0 2) := by
  constructor
  · rfl
  · decide

/-- C4 amended: for a nonempty control list and a target that is a valid
distinct block wire (0 < target <= len(controls), so the host library accepts
the step-2 wire list [0, target]), step 2 of linear_mc_gate appends
rootPower(U, 2^(nqubits-2), inverse=false) controlled on block wire 0 and
targeting block wire `target` — the caller's numeric target index, not
necessarily the block's last wire; the two coincide exactly when
target = len(controls), as at every call site in the repository. -/
theorem C4_amended {α : Type} (u : α) (controls : List ℕ) (target : ℕ)
    (h : 1 ≤ controls.length) (ht0 : 0 < target) (htl : target ≤ controls.length) :
    (linear_mc_block u controls target)[controls.length - 1]?
      = some (MCGate.cu u (2 ^ (controls.length + 1 - 2)) false 0 target) :=
  step2_gate u controls target h

/-- Witness for the amended C4 with controls [0, 1] and target 2. -/
theorem C4_witness :
    (1 ≤ ([0, 1] : List ℕ).length ∧ 0 < 2 ∧ 2 ≤ ([0, 1] : List ℕ).length) ∧
      (linear_mc_block zMatrix [0, 1] 2)[1]? = some (MCGate.cu zMatrix 2 false 0 2) :=
  ⟨⟨by decide, by decide, by decide⟩,
    C4_amended zMatrix [0, 1] 2 (by decide) (by decide) (by decide)⟩

/-- C5: the claimed cross-validation — diagonal_oracle_less_than(N, nqubits)
assigns to every basis state exactly the phase the less-than oracle marks,
-1 below N and +1 at or above N — is the evident intent. The first two
conjuncts prove it against the marking itself and against the working
oracle_less_than of code_oracle.py. But in functions_oracles.py, the file
that defines diagonal_oracle_less_than, oracle_less_than raises TypeError
through the broken multi_control_z call (keyword targ= against parameter
target) for every 0 < N < 2^nqubits except N = 2^(nqubits-1) (third
conjunct), so the program as written has no circuit for the diagonal to
match there — a code bug, not a spec error. -/
theorem C5_diagonal_vs_oracles (n N x : ℕ) (h0 : 0 < N) (h1 : N < 2 ^ n)
    (hx : x < 2 ^ n) :
    (diagonal_oracle_less_than N n).getD x 1 = (if x < N then -1 else 1) ∧
    (∃ gs, oracle_less_than N n = Except.ok gs ∧
      (diagonal_oracle_less_than N n).getD x 1 = (applyGates gs x).2) ∧
    (N ≠ 2 ^ (n - 1) → fo_oracle_less_than N n = Except.error PyErr.typeError) := by
  have hdiag : (diagonal_oracle_less_than N n).getD x 1 = (if x < N then -1 else 1) := by
    rw [diagonal_oracle_less_than, array_less_than, List.getD_eq_getElem?_getD]
    by_cases hlt : x < N
    · rw [List.getElem?_append_left (by simpa using hlt), List.getElem?_replicate,
        if_pos hlt]
      simp [hlt]
    · rw [List.getElem?_append_right (by simpa using hlt), List.getElem?_replicate]
      rw [List.length_replicate, if_pos (by omega)]
      simp [hlt]
  obtain ⟨gs, hgs, happ⟩ := oracle_core n N x h0 h1 hx
  refine ⟨hdiag, ⟨gs, hgs, ?_⟩, fun hne => fo_oracle_error n N h0 h1 hne⟩
  rw [hdiag, happ]

/-- Witness for C5 at nqubits = 2, N = 3, x = 1. -/
theorem C5_witness :
    0 < 3 ∧ 3 < 2 ^ 2 ∧ 1 < 2 ^ 2 ∧
      ((diagonal_oracle_less_than 3 2).getD 1 1 = (if 1 < 3 then -1 else 1) ∧
      (∃ gs, oracle_less_than 3 2 = Except.ok gs ∧
        (diagonal_oracle_less_than 3 2).getD 1 1 = (applyGates gs 1).2) ∧
      (3 ≠ 2 ^ (2 - 1) → fo_oracle_less_than 3 2 = Except.error PyErr.typeError)) :=
  ⟨by decide, by decide, by decide,
    C5_diagonal_vs_oracles 2 3 1 (by decide) (by decide) (by decide)⟩

/-- C6 counterexample: at number = 1, nqubits = 2 the call traces in the real
program (the inner oracle_less_than(2, 2) reduces to an X-Z-X sandwich and
reaches no multi_control_z), and the four gates appended after it are, in
append order, Z, X, Z, X on wire 0 — not X, Z, X, Z as the claim's "the four
appended gates, in the stated order" asserts. -/
theorem C6_counterexample :
    fo_oracle_greater_than 1 2 = Except.ok
      ([Gate.x 1, Gate.z 1, Gate.x 1] ++ [Gate.z 0, Gate.x 0, Gate.z 0, Gate.x 0]) ∧
    ([Gate.z 0, Gate.x 0, Gate.z 0, Gate.x 0] : List Gate)
      ≠ [Gate.x 0, Gate.z 0, Gate.x 0, Gate.z 0] := by
  constructor
  · rfl
  · decide

/-- C6 amended: whenever oracle_greater_than(number, nqubits) returns a
circuit — in functions_oracles.py as written this happens exactly when the
inner oracle_less_than(number+1, nqubits) call survives, i.e. for
number + 1 = 2^(nqubits-1), every other in-range number raising TypeError
through the broken multi_control_z, which the exception propagates — that
circuit is the inner one followed by a global phase flip realized as the
appended single-qubit sequence Z-X-Z-X on wire 0 (the operator product
X*Z*X*Z), which composes to minus the identity on that wire: the four
appended gates restore every basis state and contribute the constant
phase -1. -/
theorem C6_amended (number n : ℕ) (gs : List Gate)
    (h : fo_oracle_greater_than number n = Except.ok gs) :
    ∃ gsLT, fo_oracle_less_than (number + 1) n = Except.ok gsLT ∧
      gs = gsLT ++ [Gate.z 0, Gate.x 0, Gate.z 0, Gate.x 0] ∧
      (∀ s, applyGates [Gate.z 0, Gate.x 0, Gate.z 0, Gate.x 0] s = (s, -1)) ∧
      (∀ s, applyGates gs s = ((applyGates gsLT s).1, -(applyGates gsLT s).2)) := by
  have hzxzx : ∀ s : ℕ, applyGates [Gate.z 0, Gate.x 0, Gate.z 0, Gate.x 0] s = (s, -1) := by
    intro s
    simp only [applyGates, applyGate]
    rw [Nat.xor_cancel_right]
    have hbit : (s ^^^ 2 ^ 0).testBit 0 = !(s.testBit 0) := by
      rw [Nat.testBit_xor]
      simp [Nat.testBit_two_pow]
    simp only [hbit]
    cases hs : s.testBit 0
    · simp [hs]
    · simp [hs]
  cases hLT : fo_oracle_less_than (number + 1) n with
  | error e =>
    rw [fo_oracle_greater_than, hLT] at h
    cases h
  | ok gsLT =>
    rw [fo_oracle_greater_than, hLT] at h
    have hgs : gs = gsLT ++ [Gate.z 0, Gate.x 0, Gate.z 0, Gate.x 0] := by
      injection h with h2
      exact h2.symm
    refine ⟨gsLT, rfl, hgs, hzxzx, ?_⟩
    intro s
    rw [hgs, applyGates_append, hzxzx]
    simp [mul_comm]

/-- Witness for the amended C6 at number = 1, nqubits = 2. -/
theorem C6_witness :
    fo_oracle_greater_than 1 2 = Except.ok
      [Gate.x 1, Gate.z 1, Gate.x 1, Gate.z 0, Gate.x 0, Gate.z 0, Gate.x 0] ∧
    ∃ gsLT, fo_oracle_less_than 2 2 = Except.ok gsLT ∧
      [Gate.x 1, Gate.z 1, Gate.x 1, Gate.z 0, Gate.x 0, Gate.z 0, Gate.x 0]
        = gsLT ++ [Gate.z 0, Gate.x 0, Gate.z 0, Gate.x 0] ∧
      (∀ s, applyGates [Gate.z 0, Gate.x 0, Gate.z 0, Gate.x 0] s = (s, -1)) ∧
      (∀ s, applyGates [Gate.x 1, Gate.z 1, Gate.x 1,
          Gate.z 0, Gate.x 0, Gate.z 0, Gate.x 0] s
        = ((applyGates gsLT s).1, -(applyGates gsLT s).2)) :=
  ⟨rfl, C6_amended 1 2 _ rfl⟩

/-- C7: _build_Q_gates appends CRX gates in exactly two passes over the pairs
(control, target) with control < target in 0..nqubits-1: pass 1 starts
controls at 1 if inverse else 0, uses exponent target - control reduced by 1
more when control = 0, angle +pi/2^exponent, and visits pairs in descending
order of control + target; pass 2 starts controls at 0 if inverse else 1,
uses the same exponent rule, angle -pi/2^exponent, and visits pairs in
ascending order of control + target. -/
theorem C7_build_Q_gates {α : Type} (n : ℕ) (inv : Bool) :
    build_Q_gates (α := α) n inv = qPass1 n inv ++ qPass2 n inv ∧
    (qPass1 (α := α) n inv).Perm
      ((qpairs (if inv then 1 else 0) n).map (fun p => MCGate.crx 1 (qexp p) p.1 p.2)) ∧
    List.Pairwise (fun g1 g2 => qkey g2 ≤ qkey g1) (qPass1 (α := α) n inv) ∧
    (qPass2 (α := α) n inv).Perm
      ((qpairs (if inv then 0 else 1) n).map (fun p => MCGate.crx (-1) (qexp p) p.1 p.2)) ∧
    List.Pairwise (fun g1 g2 => qkey g1 ≤ qkey g2) (qPass2 (α := α) n inv) ∧
    (∀ c t : ℕ, (c, t) ∈ qpairs (if inv then 1 else 0) n ↔
      (if inv then 1 else 0) ≤ c ∧ c < t ∧ t < n) ∧
    (∀ c t : ℕ, (c, t) ∈ qpairs (if inv then 0 else 1) n ↔
      (if inv then 0 else 1) ≤ c ∧ c < t ∧ t < n) ∧
    (∀ p : ℕ × ℕ, qexp p = p.2 - p.1 - (if p.1 = 0 then 1 else 0)) := by
  refine ⟨rfl, ?_, ?_, ?_, ?_, fun c t => mem_qpairs _ n c t,
    fun c t => mem_qpairs _ n c t, fun p => rfl⟩
  · exact (List.perm_insertionSort _ _).map _
  · rw [qPass1, List.pairwise_map]
    letI : IsTotal (ℕ × ℕ) (fun p q : ℕ × ℕ => q.1 + q.2 ≤ p.1 + p.2) :=
      ⟨fun a b => le_total (b.1 + b.2) (a.1 + a.2)⟩
    letI : IsTrans (ℕ × ℕ) (fun p q : ℕ × ℕ => q.1 + q.2 ≤ p.1 + p.2) :=
      ⟨fun a b c hab hbc => le_trans hbc hab⟩
    have hs := List.sorted_insertionSort (fun p q : ℕ × ℕ => q.1 + q.2 ≤ p.1 + p.2)
      (qpairs (if inv then 1 else 0) n)
    exact hs.imp (fun h => h)
  · exact (List.perm_insertionSort _ _).map _
  · rw [qPass2, List.pairwise_map]
    letI : IsTotal (ℕ × ℕ) (fun p q : ℕ × ℕ => p.1 + p.2 ≤ q.1 + q.2) :=
      ⟨fun a b => le_total (a.1 + a.2) (b.1 + b.2)⟩
    letI : IsTrans (ℕ × ℕ) (fun p q : ℕ × ℕ => p.1 + p.2 ≤ q.1 + q.2) :=
      ⟨fun a b c hab hbc => le_trans hab hbc⟩
    have hs := List.sorted_insertionSort (fun p q : ℕ × ℕ => p.1 + p.2 ≤ q.1 + q.2)
      (qpairs (if inv then 0 else 1) n)
    exact hs.imp (fun h => h)

/-- C8: the direct P pass (inverse = false) visits control wires in descending
order nqubits-2 down to 1, the inverse pass visits them ascending 1 up to
nqubits-2, the two visiting orders are exact reverses of each other, and for
each visited control k either pass appends rootPower(U, 2^(nqubits-1-k), inv)
controlled on wire k targeting wire nqubits-1. -/
theorem C8_build_P_gates {α : Type} (u : α) (n : ℕ) :
    pControls n false = (pControls n true).reverse ∧
    pControls n true = List.range' 1 (n - 2) ∧
    List.Pairwise (fun a b => b < a) (pControls n false) ∧
    List.Pairwise (fun a b => a < b) (pControls n true) ∧
    (∀ inv : Bool, build_P_gates u n inv
      = (pControls n inv).map (fun k => MCGate.cu u (2 ^ (n - 1 - k)) inv k (n - 1))) ∧
    (∀ inv : Bool, ∀ k : ℕ, k ∈ pControls n inv ↔ 1 ≤ k ∧ k ≤ n - 2) := by
  have hasc : List.Pairwise (fun a b => a < b) (List.range' 1 (n - 2)) := by
    rw [List.range'_eq_map_range, List.pairwise_map]
    exact (List.pairwise_lt_range _).imp (fun h => by omega)
  have htrue : pControls n true = List.range' 1 (n - 2) := rfl
  refine ⟨pControls_mirror n, htrue, ?_, ?_, fun inv => rfl,
    fun inv k => mem_pControls n inv k⟩
  · rw [pControls_mirror n, List.pairwise_reverse, htrue]
    exact hasc
  · rw [htrue]
    exact hasc

/-- C9: whenever nbits is smaller than the length of the binary string
bin(number)[2:], to_binary does not raise and does not truncate: it prints an
error message and falls off the function, implicitly returning None
(modelled as `none`). -/
theorem C9_to_binary_none (number nbits : ℕ)
    (h : nbits < (pyBin number).length) :
    to_binary number (some nbits) = none := by
  simp [to_binary, h]

/-- Witness for C9 at number = 5, nbits = 2. -/
theorem C9_witness : 2 < (pyBin 5).length ∧ to_binary 5 (some 2) = none :=
  ⟨by decide, C9_to_binary_none 5 2 (by decide)⟩

/-- C10: for every nqubits >= 1, oracle_less_than(0, nqubits) does not return
a circuit: zero-padding 0 gives the all-zero string, stripping trailing zeros
leaves the empty string, and indexing its first character fails with
IndexError — the boundary case N = 0 is unhandled. -/
theorem C10_oracle_zero (n : ℕ) (h : 1 ≤ n) :
    oracle_less_than 0 n = Except.error PyErr.indexError := by
  have hbin : pyBin 0 = [false] := rfl
  have htb : to_binary 0 (some n) = some (List.replicate (n - 1) false ++ [false]) := by
    rw [to_binary, hbin]
    rw [if_neg (by simp; omega)]
    simp
  have hstrip : rstrip (List.replicate (n - 1) false ++ [false]) = [] := by
    rw [rstrip_eq_nil_iff, bitsVal_pad]
    rfl
  rw [oracle_less_than, htb]
  simp only [hstrip]

/-- Witness for C10 at nqubits = 3. -/
theorem C10_witness : 1 ≤ 3 ∧ oracle_less_than 0 3 = Except.error PyErr.indexError :=
  ⟨by decide, C10_oracle_zero 3 (by decide)⟩

end LTO
